import Mathlib

/-!
Verification of the deadsy/go-cli line editor (line.go) against its
natural-language specification.

Modelling conventions:
* Go runes (Unicode code points) are modelled as `Nat`; Go byte values as
  `Nat` (< 256 in practice); Go `[]rune` buffers and history entries as
  `List Nat`.  Go byte-strings (used by the hints renderer, which slices a
  Go `string` by bytes) are `List Nat` of bytes.
* Go `int` variables that the code keeps non-negative through explicit
  guards (`pos`, `history_idx`, lengths) are modelled as `Nat`; the only
  decrements are behind `> 0` guards or followed by clamps to 0, so
  truncated subtraction agrees with Go `int` arithmetic.  Where a Go `int`
  can actually be negative (`hint_cols`, pop indices, `HistorySetMaxlen`'s
  argument) we use `Int`.
* The display-width function of the external go-runewidth dependency is an
  arbitrary parameter `w : Nat → Nat` (per-rune column width); the string
  width is the sum over decoded runes.
* File I/O is modelled by passing file contents explicitly: `none` stands
  for an absent (or non-regular) file.
* A Go slice-bounds panic in `refresh_singleline`'s trimming loops is
  modelled as `none`.
-/

namespace GoCli

/-! ### Keycodes (line.go, `const` block) -/

def KeycodeNull : Nat := 0
def KeycodeCtrlA : Nat := 1
def KeycodeCtrlB : Nat := 2
def KeycodeCtrlC : Nat := 3
def KeycodeCtrlD : Nat := 4
def KeycodeCtrlE : Nat := 5
def KeycodeCtrlF : Nat := 6
def KeycodeCtrlH : Nat := 8
def KeycodeTAB : Nat := 9
def KeycodeLF : Nat := 10
def KeycodeCtrlK : Nat := 11
def KeycodeCtrlL : Nat := 12
def KeycodeCR : Nat := 13
def KeycodeCtrlN : Nat := 14
def KeycodeCtrlP : Nat := 16
def KeycodeCtrlT : Nat := 20
def KeycodeCtrlU : Nat := 21
def KeycodeCtrlW : Nat := 23
def KeycodeESC : Nat := 27
def KeycodeBS : Nat := 127

/-- unicode.ReplacementChar -/
def replacementChar : Nat := 0xFFFD

/-! ### UTF-8 decoder (line.go, `utf8` struct and `utf8.add`) -/

/-- Decoder states, mirroring the `iota` block of line.go. -/
def getByte0 : Nat := 0
def get3More : Nat := 1
def get2More : Nat := 2
def get1More : Nat := 3

/-- The `utf8` decoder state of line.go.  `val` is an `int32` in Go; for
every reachable input the accumulated value stays far below `2^31`, so
plain `Nat` arithmetic coincides with Go's. -/
structure utf8 where
  state : Nat
  count : Nat
  val : Nat
deriving DecidableEq

/-- The Go zero value `utf8{}`. -/
def utf8.init : utf8 := { state := 0, count := 0, val := 0 }

/-- Translation of `utf8.add` (line.go): feed one byte, return the new
decoder state together with the (rune, size) pair the Go method returns.
Size 0 means "more bytes required"; a malformed byte yields
`(replacementChar, 1)` and resets the state. -/
def utf8.add (u : utf8) (c : Nat) : utf8 × Nat × Nat :=
  if u.state = getByte0 then
    if c &&& 0x80 = 0 then
      (u, c, 1)
    else if c &&& 0xe0 = 0xc0 then
      ({ state := get1More, count := 2, val := (c &&& 0x1f) <<< 6 }, KeycodeNull, 0)
    else if c &&& 0xf0 = 0xe0 then
      ({ state := get2More, count := 3, val := (c &&& 0x0f) <<< 6 }, KeycodeNull, 0)
    else if c &&& 0xf8 = 0xf0 then
      ({ state := get3More, count := 4, val := (c &&& 0x07) <<< 6 }, KeycodeNull, 0)
    else
      ({ u with state := getByte0 }, replacementChar, 1)
  else if u.state = get3More then
    if c &&& 0xc0 = 0x80 then
      ({ u with state := get2More, val := (u.val ||| (c &&& 0x3f)) <<< 6 }, KeycodeNull, 0)
    else
      ({ u with state := getByte0 }, replacementChar, 1)
  else if u.state = get2More then
    if c &&& 0xc0 = 0x80 then
      ({ u with state := get1More, val := (u.val ||| (c &&& 0x3f)) <<< 6 }, KeycodeNull, 0)
    else
      ({ u with state := getByte0 }, replacementChar, 1)
  else if u.state = get1More then
    if c &&& 0xc0 = 0x80 then
      ({ u with state := getByte0, val := u.val ||| (c &&& 0x3f) },
        u.val ||| (c &&& 0x3f), u.count)
    else
      ({ u with state := getByte0 }, replacementChar, 1)
  else
    ({ u with state := getByte0 }, replacementChar, 1)

/-- Feed a list of bytes one at a time through `utf8.add`, collecting the
returned (rune, size) pairs, exactly as the read loop consumes them. -/
def utf8.feed (u : utf8) : List Nat → List (Nat × Nat) × utf8
  | [] => ([], u)
  | c :: cs =>
    let s := u.add c
    let rest := s.1.feed cs
    ((s.2.1, s.2.2) :: rest.1, rest.2)

/-- The standard UTF-8 encoding of a code point, by magnitude. -/
def encodeUtf8 (c : Nat) : List Nat :=
  if c < 0x80 then [c]
  else if c < 0x800 then [0xC0 + c / 64, 0x80 + c % 64]
  else if c < 0x10000 then [0xE0 + c / 4096, 0x80 + c / 64 % 64, 0x80 + c % 64]
  else [0xF0 + c / 262144, 0x80 + c / 4096 % 64, 0x80 + c / 64 % 64, 0x80 + c % 64]

/-- Unicode scalar values: the code points that have a valid UTF-8
encoding (no surrogates, at most U+10FFFF). -/
def IsScalar (c : Nat) : Prop := c < 0x110000 ∧ (c < 0xD800 ∨ 0xDFFF < c)

instance (c : Nat) : Decidable (IsScalar c) := by unfold IsScalar; infer_instance

/-! ### Display width -/

/-- runewidth.StringWidth over a rune sequence, for an arbitrary per-rune
width function `w`. -/
def stringWidthRunes (w : Nat → Nat) (l : List Nat) : Nat := (l.map w).sum

/-! ### Go byte-string rune decoding (Go standard `unicode/utf8`),
needed because `refresh_show_hints` slices a Go string by BYTES and then
asks go-runewidth for the width of the (possibly malformed) byte prefix. -/

/-- A UTF-8 continuation byte. -/
def isCont (b : Nat) : Bool := decide (0x80 ≤ b ∧ b ≤ 0xBF)

/-- Accepted range of the second byte of a 3-byte sequence (Go utf8
accept table: E0 → A0..BF, ED → 80..9F, otherwise 80..BF). -/
def acceptLow3 (b b1 : Nat) : Bool :=
  if b = 0xE0 then decide (0xA0 ≤ b1 ∧ b1 ≤ 0xBF)
  else if b = 0xED then decide (0x80 ≤ b1 ∧ b1 ≤ 0x9F)
  else isCont b1

/-- Accepted range of the second byte of a 4-byte sequence (F0 → 90..BF,
F4 → 80..8F, otherwise 80..BF). -/
def acceptLow4 (b b1 : Nat) : Bool :=
  if b = 0xF0 then decide (0x90 ≤ b1 ∧ b1 ≤ 0xBF)
  else if b = 0xF4 then decide (0x80 ≤ b1 ∧ b1 ≤ 0x8F)
  else isCont b1

/-- Decode one rune at the front, Go `utf8.DecodeRuneInString` style:
returns the rune and how many EXTRA bytes (beyond the first) it consumed.
Any invalid or incomplete sequence consumes one byte and yields U+FFFD. -/
def goDecodeOne (b : Nat) (rest : List Nat) : Nat × Nat :=
  if b < 0x80 then (b, 0)
  else if 0xC2 ≤ b ∧ b ≤ 0xDF then
    match rest with
    | b1 :: _ =>
      if isCont b1 then ((b - 0xC0) * 64 + (b1 - 0x80), 1) else (replacementChar, 0)
    | [] => (replacementChar, 0)
  else if 0xE0 ≤ b ∧ b ≤ 0xEF then
    match rest with
    | b1 :: b2 :: _ =>
      if acceptLow3 b b1 ∧ isCont b2 then
        ((b - 0xE0) * 4096 + (b1 - 0x80) * 64 + (b2 - 0x80), 2)
      else (replacementChar, 0)
    | _ => (replacementChar, 0)
  else if 0xF0 ≤ b ∧ b ≤ 0xF4 then
    match rest with
    | b1 :: b2 :: b3 :: _ =>
      if acceptLow4 b b1 ∧ isCont b2 ∧ isCont b3 then
        ((b - 0xF0) * 262144 + (b1 - 0x80) * 4096 + (b2 - 0x80) * 64 + (b3 - 0x80), 3)
      else (replacementChar, 0)
    | _ => (replacementChar, 0)
  else (replacementChar, 0)

/-- Rune decoding of a byte string, with explicit gas (the list length is
always enough gas, since every step consumes at least one byte); the gas
keeps the recursion structural so that terms evaluate definitionally. -/
def goDecodeRunesAux : Nat → List Nat → List Nat
  | 0, _ => []
  | _, [] => []
  | gas + 1, b :: rest =>
    let d := goDecodeOne b rest
    d.1 :: goDecodeRunesAux gas (rest.drop d.2)

/-- The rune sequence Go's `range` over a string produces. -/
def goDecodeRunes (l : List Nat) : List Nat := goDecodeRunesAux l.length l

/-- runewidth.StringWidth of a Go byte string: decode (replacing
malformed bytes by U+FFFD), then sum per-rune widths. -/
def goStringWidth (w : Nat → Nat) (bytes : List Nat) : Nat :=
  stringWidthRunes w (goDecodeRunes bytes)

/-! ### Hints (line.go, `Hint` struct and `refresh_show_hints`) -/

/-- The `Hint` struct of line.go.  `text` is the Go string `Hint.Hint`
as UTF-8 bytes. -/
structure Hint where
  text : List Nat
  color : Int
  bold : Bool
deriving DecidableEq

/-- The trimming loop of `refresh_show_hints`: starting at byte index
`hEnd`, decrement one BYTE at a time while the display width of the byte
prefix exceeds `hintCols`.  Mirrors
`for runewidth.StringWidth(h.Hint[:hEnd]) > hint_cols { hEnd-- }`. -/
def trimHint (w : Nat → Nat) (text : List Nat) (hintCols : Int) : Nat → Nat
  | 0 => 0
  | e + 1 =>
    if (goStringWidth w (text.take (e + 1)) : Int) > hintCols then
      trimHint w text hintCols e
    else e + 1

/-- Translation of `refresh_show_hints` (line.go), returning the rendered
hint text (as bytes) together with the fixed-up color and bold flag, or
`none` when no hint is rendered.  The surrounding ANSI escape assembly is
omitted; only the selected text matters here. -/
def refreshShowHints (w : Nat → Nat) (cols promptWidth : Nat) (buf : List Nat)
    (hintsCallback : Option (List Nat → Option Hint)) : Option (List Nat × Int × Bool) :=
  match hintsCallback with
  | none => none
  | some cb =>
    if (cols : Int) - (promptWidth : Int) - (stringWidthRunes w buf : Int) ≤ 0 then none
    else
      match cb buf with
      | none => none
      | some h =>
        if h.text.length = 0 then none
        else
          some (h.text.take (trimHint w h.text
              ((cols : Int) - (promptWidth : Int) - (stringWidthRunes w buf : Int))
              h.text.length),
            (if h.bold ∧ h.color < 0 then 37 else h.color), h.bold)

/-- All byte prefixes of `text` that lie on a rune boundary (used to
state what "trimmed one rune at a time" would produce). -/
def runeBoundaryCuts (text : List Nat) : List (List Nat) :=
  (List.range ((goDecodeRunes text).length + 1)).map
    (fun k => ((goDecodeRunes text).take k).flatMap encodeUtf8)

/-! ### Edit-line state (line.go, `linestate`) and its mutators.
Rendering never changes `buf`/`pos`, so `refresh_line` calls are dropped
from the state-transition models. -/

structure linestate where
  buf : List Nat
  pos : Nat
  history_idx : Nat
deriving DecidableEq

/-- `linestate.editDelete`: delete the character at the cursor. -/
def editDelete (ls : linestate) : linestate :=
  if ls.buf.length > 0 ∧ ls.pos < ls.buf.length then
    { ls with buf := ls.buf.take ls.pos ++ ls.buf.drop (ls.pos + 1) }
  else ls

/-- `linestate.editBackspace`: delete the character left of the cursor. -/
def editBackspace (ls : linestate) : linestate :=
  if ls.pos > 0 ∧ ls.buf.length > 0 then
    { ls with buf := ls.buf.take (ls.pos - 1) ++ ls.buf.drop ls.pos, pos := ls.pos - 1 }
  else ls

/-- `linestate.editInsert`: insert a rune at the cursor. -/
def editInsert (ls : linestate) (r : Nat) : linestate :=
  { ls with buf := ls.buf.take ls.pos ++ r :: ls.buf.drop ls.pos, pos := ls.pos + 1 }

/-- `linestate.editSwap`: swap the current character with the previous
one; advance the cursor unless it sits on the last character. -/
def editSwap (ls : linestate) : linestate :=
  if ls.pos > 0 ∧ ls.pos < ls.buf.length then
    let a := ls.buf.getD (ls.pos - 1) 0
    let b := ls.buf.getD ls.pos 0
    { ls with
      buf := (ls.buf.set (ls.pos - 1) b).set ls.pos a,
      pos := if ls.pos ≠ ls.buf.length - 1 then ls.pos + 1 else ls.pos }
  else ls

/-- `linestate.editSet`: replace the buffer, cursor to the end. -/
def editSet (ls : linestate) (s : List Nat) : linestate :=
  { ls with buf := s, pos := s.length }

/-- `linestate.editMoveLeft`. -/
def editMoveLeft (ls : linestate) : linestate :=
  if ls.pos > 0 then { ls with pos := ls.pos - 1 } else ls

/-- `linestate.editMoveRight`. -/
def editMoveRight (ls : linestate) : linestate :=
  if ls.pos ≠ ls.buf.length then { ls with pos := ls.pos + 1 } else ls

/-- `linestate.editMoveHome`. -/
def editMoveHome (ls : linestate) : linestate :=
  if ls.pos > 0 then { ls with pos := 0 } else ls

/-- `linestate.editMoveEnd`. -/
def editMoveEnd (ls : linestate) : linestate :=
  if ls.pos ≠ ls.buf.length then { ls with pos := ls.buf.length } else ls

/-- `linestate.delete_line`. -/
def delete_line (ls : linestate) : linestate := { ls with buf := [], pos := 0 }

/-- `linestate.delete_to_end`. -/
def delete_to_end (ls : linestate) : linestate := { ls with buf := ls.buf.take ls.pos }

/-- One of the backward scans of `delete_prev_word`:
`for p > 0 && cond(buf[p-1]) { p-- }`. -/
def backWhile (cond : Nat → Bool) (buf : List Nat) : Nat → Nat
  | 0 => 0
  | p + 1 => if cond (buf.getD p 0) then backWhile cond buf p else p + 1

/-- `linestate.delete_prev_word`: skip spaces, then a word, leftwards;
splice out `[new_pos, old_pos)`. -/
def delete_prev_word (ls : linestate) : linestate :=
  let oldPos := ls.pos
  let p1 := backWhile (fun c => c == 32) ls.buf ls.pos
  let p2 := backWhile (fun c => c != 32) ls.buf p1
  { ls with buf := ls.buf.take p2 ++ ls.buf.drop oldPos, pos := p2 }

/-! ### Editor-level state (line.go, `Linenoise`) and the history ring -/

structure Linenoise where
  history : List (List Nat)
  history_maxlen : Nat
deriving DecidableEq

/-- `NewLineNoise`: default `history_maxlen` is 32. -/
def lnInit : Linenoise := { history := [], history_maxlen := 32 }

/-- The index `historyPop` actually pops: `idx < 0` selects the last
entry. -/
def historyPopIdx (h : List (List Nat)) (idx : Int) : Int :=
  if idx < 0 then (h.length : Int) - 1 else idx

/-- `Linenoise.historyPop`: `idx < 0` pops the last entry; out-of-range
indices are a no-op returning the empty string.  Returns (new list,
popped entry). -/
def historyPop (h : List (List Nat)) (idx : Int) : List (List Nat) × List Nat :=
  if 0 ≤ historyPopIdx h idx ∧ historyPopIdx h idx < (h.length : Int) then
    (h.take (historyPopIdx h idx).toNat ++ h.drop ((historyPopIdx h idx).toNat + 1),
      h.getD (historyPopIdx h idx).toNat [])
  else (h, [])

/-- `Linenoise.historySet`: index `idx` addresses `history[len-1-idx]`. -/
def historySet (h : List (List Nat)) (idx : Nat) (line : List Nat) : List (List Nat) :=
  h.set (h.length - 1 - idx) line

/-- `Linenoise.historyGet`. -/
def historyGet (h : List (List Nat)) (idx : Nat) : List Nat :=
  h.getD (h.length - 1 - idx) []

/-- `Linenoise.historyNext`: stash the buffer at the current index, move
the history cursor one step toward newer entries (Go decrements and then
clamps a negative result to 0, which is `Nat` truncated subtraction),
return the entry at the new index. -/
def historyNext (l : Linenoise) (ls : linestate) : Linenoise × linestate × List Nat :=
  if l.history.length = 0 then (l, ls, [])
  else
    let l' := { l with history := historySet l.history ls.history_idx ls.buf }
    let idx : Nat := ls.history_idx - 1
    (l', { ls with history_idx := idx }, historyGet l'.history idx)

/-- `Linenoise.historyPrev`: stash the buffer, move one step toward older
entries, clamped to `len - 1`, return the entry at the new index. -/
def historyPrev (l : Linenoise) (ls : linestate) : Linenoise × linestate × List Nat :=
  if l.history.length = 0 then (l, ls, [])
  else
    let l' := { l with history := historySet l.history ls.history_idx ls.buf }
    let idx1 := ls.history_idx + 1
    let idx : Nat := if idx1 ≥ l'.history.length then l'.history.length - 1 else idx1
    (l', { ls with history_idx := idx }, historyGet l'.history idx)

/-- `Linenoise.HistoryAdd`: no-op when `maxlen` is 0 or the line already
appears anywhere in the history; at capacity, pop index 0 (the oldest)
before appending. -/
def HistoryAdd (l : Linenoise) (line : List Nat) : Linenoise :=
  if l.history_maxlen = 0 then l
  else if line ∈ l.history then l
  else if l.history.length = l.history_maxlen then
    { l with history := (historyPop l.history 0).1 ++ [line] }
  else
    { l with history := l.history ++ [line] }

/-- `Linenoise.HistorySetMaxlen`: negative is a no-op; otherwise set the
bound and truncate, keeping the most recent entries. -/
def HistorySetMaxlen (l : Linenoise) (n : Int) : Linenoise :=
  if n < 0 then l
  else
    { history :=
        if l.history.length > n.toNat then l.history.drop (l.history.length - n.toNat)
        else l.history,
      history_maxlen := n.toNat }

/-- Go's `unicode.IsSpace` (the code points `strings.TrimSpace` strips). -/
def isSpaceGo (c : Nat) : Bool :=
  decide (c = 9 ∨ c = 10 ∨ c = 11 ∨ c = 12 ∨ c = 13 ∨ c = 32 ∨ c = 0x85 ∨ c = 0xA0 ∨
    c = 0x1680 ∨ (0x2000 ≤ c ∧ c ≤ 0x200A) ∨ c = 0x2028 ∨ c = 0x2029 ∨ c = 0x202F ∨
    c = 0x205F ∨ c = 0x3000)

/-- `strings.TrimSpace`. -/
def trimSpace (s : List Nat) : List Nat :=
  ((s.dropWhile isSpaceGo).reverse.dropWhile isSpaceGo).reverse

/-- Split on newline characters (what the `bufio.ReadString('\n')` loop
of `HistoryLoad` segments the file into, including the final fragment). -/
def splitOnNL : List Nat → List (List Nat)
  | [] => [[]]
  | c :: cs =>
    if c = 10 then [] :: splitOnNL cs
    else
      match splitOnNL cs with
      | [] => [[c]]
      | t :: ts => (c :: t) :: ts

/-- The list `HistoryLoad` builds from a file's contents: split into
lines, trim each, drop empties, preserve order. -/
def parseHistory (s : List Nat) : List (List Nat) :=
  ((splitOnNL s).map trimSpace).filter (fun e => e.length != 0)

/-- `strings.Join(l.history, "\n")`. -/
def joinNL : List (List Nat) → List Nat
  | [] => []
  | [x] => x
  | x :: y :: ys => x ++ 10 :: joinNL (y :: ys)

/-- `Linenoise.HistorySave`: the file contents written, `none` when the
history is empty (no file is written at all). -/
def saveContents (l : Linenoise) : Option (List Nat) :=
  if l.history.length = 0 then none else some (joinNL l.history)

/-- `Linenoise.HistoryLoad` with the file contents passed explicitly
(`none` = absent or not a regular file: no-op).  Note the entries are
appended without any `maxlen` bound. -/
def HistoryLoad (l : Linenoise) (file : Option (List Nat)) : Linenoise :=
  match file with
  | none => l
  | some s => { l with history := parseHistory s }

/-- Save then load: the round trip of the history list through a file. -/
def historyRoundTrip (l : Linenoise) : Linenoise := HistoryLoad l (saveContents l)

/-! ### History operation sequences (for the length invariant) -/

inductive HistOp where
  | add (line : List Nat)
  | setMaxlen (n : Int)
  | pop (idx : Int)
  | save
  | load (file : Option (List Nat))

def HistOp.isLoad : HistOp → Bool
  | .load _ => true
  | _ => false

def applyHistOp (l : Linenoise) : HistOp → Linenoise
  | .add line => HistoryAdd l line
  | .setMaxlen n => HistorySetMaxlen l n
  | .pop i => { l with history := (historyPop l.history i).1 }
  | .save => l
  | .load f => HistoryLoad l f

def applyHistOps (l : Linenoise) (ops : List HistOp) : Linenoise :=
  ops.foldl applyHistOp l

/-! ### The edit operations dispatched by the edit loop (for the cursor
invariant) -/

inductive EditOp where
  | insert (r : Nat)
  | backspace
  | delete
  | swap
  | moveLeft
  | moveRight
  | moveHome
  | moveEnd
  | deleteLine
  | deleteToEnd
  | deletePrevWord
  | set (s : List Nat)
  | histPrev
  | histNext

/-- Apply one edit operation the way the edit loop does.  History
navigation is `ls.editSet(l.historyPrev(ls))` / `historyNext`. -/
def applyEditOp (l : Linenoise) (ls : linestate) : EditOp → Linenoise × linestate
  | .insert r => (l, editInsert ls r)
  | .backspace => (l, editBackspace ls)
  | .delete => (l, editDelete ls)
  | .swap => (l, editSwap ls)
  | .moveLeft => (l, editMoveLeft ls)
  | .moveRight => (l, editMoveRight ls)
  | .moveHome => (l, editMoveHome ls)
  | .moveEnd => (l, editMoveEnd ls)
  | .deleteLine => (l, delete_line ls)
  | .deleteToEnd => (l, delete_to_end ls)
  | .deletePrevWord => (l, delete_prev_word ls)
  | .set s => (l, editSet ls s)
  | .histPrev =>
    let r := historyPrev l ls
    (r.1, editSet r.2.1 r.2.2)
  | .histNext =>
    let r := historyNext l ls
    (r.1, editSet r.2.1 r.2.2)

/-! ### One step of the edit loop (line.go, `Linenoise.edit`) -/

structure EditCfg where
  hotkey : Nat
  hasCompletion : Bool
deriving DecidableEq

/-- The input events the loop body distinguishes.  The ESC branch of the
loop is driven by a 20 ms readiness probe: `loneEsc` is "nothing more to
read"; `escSeq s0 s1 s2` carries the follow-up runes (with `s2` the
extended byte read only for `ESC [ 0-9`). -/
inductive InEvent where
  | ch (r : Nat)
  | loneEsc
  | escSeq (s0 s1 : Nat) (s2 : Option Nat)

/-- Outcome of one loop iteration: keep editing, return from `edit`
(with the returned line and whether the error is ErrQuit), or enter the
interactive completion cycler (TAB with a completion callback). -/
inductive StepOut where
  | cont (l : Linenoise) (ls : linestate)
  | ret (l : Linenoise) (line : List Nat) (quit : Bool)
  | completeReq (l : Linenoise) (ls : linestate)
deriving DecidableEq

/-- Translation of the dispatch in `Linenoise.edit`'s loop body for one
received rune / escape event (rune `KeycodeNull` never reaches the
dispatch: the loop `continue`s on it). -/
def editStep (cfg : EditCfg) (l : Linenoise) (ls : linestate) : InEvent → StepOut
  | .loneEsc =>
    -- single escape: pop the live-buffer entry, return ("", nil)
    .ret { l with history := (historyPop l.history (-1)).1 } [] false
  | .escSeq s0 s1 s2 =>
    if s0 = 91 then
      if 48 ≤ s1 ∧ s1 ≤ 57 then
        match s2 with
        | some c2 => if c2 = 126 ∧ s1 = 51 then .cont l (editDelete ls) else .cont l ls
        | none => .cont l ls
      else if s1 = 65 then
        let r := historyPrev l ls
        .cont r.1 (editSet r.2.1 r.2.2)
      else if s1 = 66 then
        let r := historyNext l ls
        .cont r.1 (editSet r.2.1 r.2.2)
      else if s1 = 67 then .cont l (editMoveRight ls)
      else if s1 = 68 then .cont l (editMoveLeft ls)
      else if s1 = 72 then .cont l (editMoveHome ls)
      else if s1 = 70 then .cont l (editMoveEnd ls)
      else .cont l ls
    else if s0 = 48 then
      if s1 = 72 then .cont l (editMoveHome ls)
      else if s1 = 70 then .cont l (editMoveEnd ls)
      else .cont l ls
    else .cont l ls
  | .ch r =>
    if r = KeycodeTAB ∧ cfg.hasCompletion then .completeReq l ls
    else if r = KeycodeCR ∨ r = cfg.hotkey then
      let l' := { l with history := (historyPop l.history (-1)).1 }
      .ret l' (if r = cfg.hotkey then ls.buf ++ [cfg.hotkey] else ls.buf) false
    else if r = KeycodeBS then .cont l (editBackspace ls)
    else if r = KeycodeESC then
      -- the ESC branch arrives as the loneEsc / escSeq events
      .cont l ls
    else if r = KeycodeCtrlA then .cont l (editMoveHome ls)
    else if r = KeycodeCtrlB then .cont l (editMoveLeft ls)
    else if r = KeycodeCtrlC then .ret l [] true
    else if r = KeycodeCtrlD then
      if ls.buf.length > 0 then .cont l (editDelete ls)
      else .ret { l with history := (historyPop l.history (-1)).1 } [] true
    else if r = KeycodeCtrlE then .cont l (editMoveEnd ls)
    else if r = KeycodeCtrlF then .cont l (editMoveRight ls)
    else if r = KeycodeCtrlH then .cont l (editBackspace ls)
    else if r = KeycodeCtrlK then .cont l (delete_to_end ls)
    else if r = KeycodeCtrlL then .cont l ls
    else if r = KeycodeCtrlN then
      let x := historyNext l ls
      .cont x.1 (editSet x.2.1 x.2.2)
    else if r = KeycodeCtrlP then
      let x := historyPrev l ls
      .cont x.1 (editSet x.2.1 x.2.2)
    else if r = KeycodeCtrlT then .cont l (editSwap ls)
    else if r = KeycodeCtrlU then .cont l (delete_line ls)
    else if r = KeycodeCtrlW then .cont l (delete_prev_word ls)
    else .cont l (editInsert ls r)

/-! ### Single-line refresh trimming (line.go, `refresh_singleline`) -/

/-- Display width of the Go slice `buf[i:j]`. -/
def sliceW (w : Nat → Nat) (buf : List Nat) (i j : Nat) : Nat :=
  stringWidthRunes w ((buf.take j).drop i)

/-- The left-anchor loop of `refresh_singleline`:
`for prompt_width + pos_width >= cols { b_start++; pos_width = width(buf[b_start:pos]) }`.
`none` models the Go slice-bounds panic when `b_start` passes `pos`. -/
def trimLeftLoop (w : Nat → Nat) (promptWidth cols : Nat) (buf : List Nat) (pos : Nat)
    (bs : Nat) : Option Nat :=
  if promptWidth + sliceW w buf bs pos ≥ cols then
    if h : bs + 1 > pos then none
    else trimLeftLoop w promptWidth cols buf pos (bs + 1)
  else some bs
termination_by pos - bs
decreasing_by omega

/-- The right-anchor loop of `refresh_singleline`:
`for prompt_width + buf_width >= cols { b_end--; buf_width = width(buf[b_start:b_end]) }`.
`none` models the slice-bounds panic when `b_end` drops below `b_start`. -/
def trimRightLoop (w : Nat → Nat) (promptWidth cols : Nat) (buf : List Nat) (bs : Nat)
    (be : Nat) : Option Nat :=
  if promptWidth + sliceW w buf bs be ≥ cols then
    if h : be ≤ bs then none
    else trimRightLoop w promptWidth cols buf bs (be - 1)
  else some be
termination_by be
decreasing_by omega

/-- The `(b_start, b_end)` window `refresh_singleline` paints, or `none`
when the code panics.  The leading guard models the initial
`width(buf[:pos])` slice. -/
def refreshSinglelineFrame (w : Nat → Nat) (promptWidth cols : Nat) (buf : List Nat)
    (pos : Nat) : Option (Nat × Nat) :=
  if pos > buf.length then none
  else
    match trimLeftLoop w promptWidth cols buf pos 0 with
    | none => none
    | some bs =>
      match trimRightLoop w promptWidth cols buf bs buf.length with
      | none => none
      | some be => some (bs, be)

/-! ### Concrete instances used by counterexamples -/

/-- A concrete go-runewidth instance: U+4E2D (a wide CJK glyph) has
width 2, everything else (including U+FFFD) width 1 — go-runewidth's
actual values at the code points involved. -/
def w0 : Nat → Nat := fun c => if c = 0x4E2D then 2 else 1

/-- A hint whose text is the single wide glyph U+4E2D, "中", as its
3-byte UTF-8 encoding. -/
def hintCJK : Hint := { text := [228, 184, 173], color := -1, bold := false }

/-! ## Theorems -/

/-! ### C7: HistoryAdd is a no-op on duplicates and when maxlen = 0 -/

/-- Claim C7: for every history state, adding a line that is already
present anywhere in the history leaves the history unchanged, and when
`history_maxlen = 0` every add is a no-op. -/
theorem historyAdd_noop (l : Linenoise) (line : List Nat) :
    (l.history_maxlen = 0 → HistoryAdd l line = l) ∧
    (line ∈ l.history → HistoryAdd l line = l) := by
  constructor
  · intro h
    simp [HistoryAdd, h]
  · intro h
    unfold HistoryAdd
    by_cases h0 : l.history_maxlen = 0
    · simp [h0]
    · simp [h0, h]

/-- Witness for C7 at a concrete history. -/
theorem historyAdd_noop_witness :
    HistoryAdd { history := [[97]], history_maxlen := 32 } [97] =
      { history := [[97]], history_maxlen := 32 } :=
  (historyAdd_noop { history := [[97]], history_maxlen := 32 } [97]).2 (by decide)

/-! ### C4: editSwap -/

/-- Claim C4 counterexample: with buffer "ab" and the cursor at the end
(`pos = len = 2`), `editSwap` is a no-op — it does not exchange the last
two runes as the claim asserts (the guard `pos < len(buf)` fails). -/
theorem editSwap_end_noop :
    editSwap { buf := [97, 98], pos := 2, history_idx := 0 } =
      { buf := [97, 98], pos := 2, history_idx := 0 } ∧
    (editSwap { buf := [97, 98], pos := 2, history_idx := 0 }).buf ≠ [98, 97] := by
  decide

/-- Claim C4 (amended): `editSwap` is a no-op unless `0 < pos < len(buf)`;
in that case it exchanges `buf[pos-1]` and `buf[pos]` (all other entries
and the length unchanged) and sets `pos` to `min (pos+1) (len-1)`, i.e.
it advances the cursor except when it sits on the last character. -/
theorem editSwap_spec (ls : linestate) (h1 : 0 < ls.pos) (h2 : ls.pos < ls.buf.length) :
    (editSwap ls).buf.length = ls.buf.length ∧
    (editSwap ls).buf.getD (ls.pos - 1) 0 = ls.buf.getD ls.pos 0 ∧
    (editSwap ls).buf.getD ls.pos 0 = ls.buf.getD (ls.pos - 1) 0 ∧
    (∀ i, i ≠ ls.pos - 1 → i ≠ ls.pos → (editSwap ls).buf.getD i 0 = ls.buf.getD i 0) ∧
    (editSwap ls).pos = min (ls.pos + 1) (ls.buf.length - 1) ∧
    (editSwap ls).history_idx = ls.history_idx := by
  unfold editSwap
  rw [if_pos ⟨h1, h2⟩]
  refine ⟨?_, ?_, ?_, ?_, ?_, rfl⟩
  · simp
  · rw [List.getD_eq_getElem?_getD, List.getD_eq_getElem?_getD,
      List.getElem?_set_ne (by omega), List.getElem?_set_self (by simpa using by omega)]
    simp [List.getD_eq_getElem?_getD]
  · rw [List.getD_eq_getElem?_getD, List.getD_eq_getElem?_getD,
      List.getElem?_set_self (by simpa using h2)]
    simp [List.getD_eq_getElem?_getD]
  · intro i hi1 hi2
    simp only [List.getD_eq_getElem?_getD]
    rw [List.getElem?_set_ne (Ne.symm hi2), List.getElem?_set_ne (Ne.symm hi1)]
  · dsimp only
    split
    · omega
    · omega

/-- Witness for C4's amended theorem: swapping "abc" with the cursor at 1
turns it into "bac" with the cursor at 2. -/
theorem editSwap_spec_witness :
    (editSwap { buf := [97, 98, 99], pos := 1, history_idx := 0 }).pos = 2 ∧
    (editSwap { buf := [97, 98, 99], pos := 1, history_idx := 0 }).buf.getD 0 0 = 98 := by
  have h := editSwap_spec { buf := [97, 98, 99], pos := 1, history_idx := 0 }
    (by decide) (by decide)
  exact ⟨by simpa using h.2.2.2.2.1, by simpa using h.2.1⟩

/-! ### C3: history length invariant -/

/-- The popped list is never longer than the original. -/
theorem historyPop_length_le (h : List (List Nat)) (i : Int) :
    ((historyPop h i).1).length ≤ h.length := by
  unfold historyPop
  by_cases hc : 0 ≤ historyPopIdx h i ∧ historyPopIdx h i < (h.length : Int)
  · rw [if_pos hc]
    show (h.take (historyPopIdx h i).toNat ++ h.drop ((historyPopIdx h i).toNat + 1)).length ≤
      h.length
    simp only [List.length_append, List.length_take, List.length_drop]
    omega
  · rw [if_neg hc]

/-- Popping index 0 of a non-empty history drops the oldest entry. -/
theorem historyPop_zero (h : List (List Nat)) (hne : h ≠ []) :
    (historyPop h 0).1 = h.drop 1 := by
  have hl : 0 < h.length := List.length_pos.mpr hne
  have hidx : historyPopIdx h 0 = 0 := by
    unfold historyPopIdx
    rw [if_neg (by omega)]
  unfold historyPop
  rw [hidx, if_pos (by constructor <;> [omega; exact_mod_cast hl])]
  simp

/-- One non-load history operation preserves `len(history) ≤ maxlen`. -/
theorem applyHistOp_inv (l : Linenoise) (op : HistOp) (hop : op.isLoad = false)
    (hinv : l.history.length ≤ l.history_maxlen) :
    (applyHistOp l op).history.length ≤ (applyHistOp l op).history_maxlen := by
  cases op with
  | add line =>
    show (HistoryAdd l line).history.length ≤ (HistoryAdd l line).history_maxlen
    unfold HistoryAdd
    by_cases h0 : l.history_maxlen = 0
    · rw [if_pos h0]
      exact hinv
    · rw [if_neg h0]
      by_cases hm : line ∈ l.history
      · rw [if_pos hm]
        exact hinv
      · rw [if_neg hm]
        by_cases hc : l.history.length = l.history_maxlen
        · have hne : l.history ≠ [] := by
            intro he
            rw [he] at hc
            exact h0 hc.symm
          rw [if_pos hc]
          show ((historyPop l.history 0).1 ++ [line]).length ≤ l.history_maxlen
          rw [historyPop_zero l.history hne]
          simp only [List.length_append, List.length_drop]
          have : 0 < l.history.length := List.length_pos.mpr hne
          simp only [List.length_cons, List.length_nil]
          omega
        · rw [if_neg hc]
          show (l.history ++ [line]).length ≤ l.history_maxlen
          simp only [List.length_append, List.length_cons, List.length_nil]
          omega
  | setMaxlen n =>
    show (HistorySetMaxlen l n).history.length ≤ (HistorySetMaxlen l n).history_maxlen
    unfold HistorySetMaxlen
    by_cases hn : n < 0
    · rw [if_pos hn]
      exact hinv
    · rw [if_neg hn]
      show (if l.history.length > n.toNat then
          l.history.drop (l.history.length - n.toNat) else l.history).length ≤ n.toNat
      by_cases hg : l.history.length > n.toNat
      · rw [if_pos hg]
        simp only [List.length_drop]
        omega
      · rw [if_neg hg]
        omega
  | pop i =>
    show ((historyPop l.history i).1).length ≤ l.history_maxlen
    exact le_trans (historyPop_length_le l.history i) hinv
  | save => exact hinv
  | load f => simp [HistOp.isLoad] at hop

/-- Claim C3 (amended): for every sequence of `add`, `set_maxlen`, `pop`
and `save` operations (but NOT `load`, which installs every non-empty
trimmed line of the file without enforcing the bound), the invariant
`len(history) ≤ history_maxlen` is preserved; and an `add` at capacity
(non-duplicate line, `maxlen ≠ 0`) evicts the oldest entry before
appending the new line. -/
theorem history_length_invariant (ops : List HistOp) (hops : ∀ op ∈ ops, op.isLoad = false)
    (l : Linenoise) (hinv : l.history.length ≤ l.history_maxlen) :
    (applyHistOps l ops).history.length ≤ (applyHistOps l ops).history_maxlen ∧
    (∀ (l' : Linenoise) (line : List Nat),
      l'.history.length = l'.history_maxlen → l'.history_maxlen ≠ 0 → line ∉ l'.history →
      (HistoryAdd l' line).history = l'.history.drop 1 ++ [line]) := by
  constructor
  · induction ops generalizing l with
    | nil => simpa [applyHistOps] using hinv
    | cons op rest ih =>
      have h1 : op.isLoad = false := hops op (List.mem_cons_self op rest)
      have h2 : ∀ o ∈ rest, o.isLoad = false := fun o ho => hops o (List.mem_cons_of_mem op ho)
      simpa [applyHistOps] using ih h2 (applyHistOp l op) (applyHistOp_inv l op h1 hinv)
  · intro l' line hcap hne hmem
    have hnil : l'.history ≠ [] := by
      intro he
      rw [he] at hcap
      exact hne hcap.symm
    unfold HistoryAdd
    rw [if_neg hne, if_neg hmem, if_pos hcap]
    show (historyPop l'.history 0).1 ++ [line] = l'.history.drop 1 ++ [line]
    rw [historyPop_zero l'.history hnil]

/-- Claim C3 counterexample: starting from the fresh editor, set
`maxlen = 1` and load a two-line file — the history then has 2 entries,
violating `len(history) ≤ history_maxlen`. -/
theorem historyLoad_exceeds_maxlen :
    ¬ ((applyHistOps lnInit [HistOp.setMaxlen 1, HistOp.load (some [97, 10, 98])]).history.length ≤
       (applyHistOps lnInit [HistOp.setMaxlen 1, HistOp.load (some [97, 10, 98])]).history_maxlen) := by
  decide

/-- Witness for C3's amended theorem on a concrete operation sequence. -/
theorem history_length_invariant_witness :
    (applyHistOps lnInit [HistOp.setMaxlen 2, HistOp.add [97], HistOp.add [98],
      HistOp.add [99], HistOp.pop 0, HistOp.save]).history.length ≤
    (applyHistOps lnInit [HistOp.setMaxlen 2, HistOp.add [97], HistOp.add [98],
      HistOp.add [99], HistOp.pop 0, HistOp.save]).history_maxlen :=
  (history_length_invariant [HistOp.setMaxlen 2, HistOp.add [97], HistOp.add [98],
      HistOp.add [99], HistOp.pop 0, HistOp.save] (by decide) lnInit (by decide)).1

/-! ### C6: save/load round trip -/

/-- A line without newlines splits into itself. -/
theorem splitOnNL_no_nl (x : List Nat) (hx : 10 ∉ x) : splitOnNL x = [x] := by
  induction x with
  | nil => rfl
  | cons c cs ih =>
    have hc : c ≠ 10 := fun h => hx (h ▸ List.mem_cons_self c cs)
    have hcs : 10 ∉ cs := fun h => hx (List.mem_cons_of_mem c h)
    rw [splitOnNL, if_neg hc, ih hcs]

/-- Splitting `x ++ "\n" ++ r` peels off `x` when `x` has no newline. -/
theorem splitOnNL_append (x r : List Nat) (hx : 10 ∉ x) :
    splitOnNL (x ++ 10 :: r) = x :: splitOnNL r := by
  induction x with
  | nil => simp [splitOnNL]
  | cons c cs ih =>
    have hc : c ≠ 10 := fun h => hx (h ▸ List.mem_cons_self c cs)
    have hcs : 10 ∉ cs := fun h => hx (List.mem_cons_of_mem c h)
    rw [List.cons_append, splitOnNL, if_neg hc, ih hcs]

/-- Splitting the newline-join of newline-free lines recovers them. -/
theorem splitOnNL_joinNL (hs : List (List Nat)) (hne : hs ≠ [])
    (h10 : ∀ e ∈ hs, 10 ∉ e) : splitOnNL (joinNL hs) = hs := by
  induction hs with
  | nil => exact absurd rfl hne
  | cons x rest ih =>
    cases rest with
    | nil => exact splitOnNL_no_nl x (h10 x (List.mem_cons_self x []))
    | cons y ys =>
      rw [joinNL, splitOnNL_append x _ (h10 x (List.mem_cons_self x (y :: ys)))]
      rw [ih (by simp) (fun e he => h10 e (List.mem_cons_of_mem x he))]

/-- Claim C6 counterexample: the single-entry history [" a"] (non-empty,
no newline) does NOT round-trip: load trims the leading space. -/
theorem history_roundtrip_trim_counterexample :
    historyRoundTrip { history := [[32, 97]], history_maxlen := 32 } ≠
      { history := [[32, 97]], history_maxlen := 32 } := by
  decide

/-- Claim C6 (amended): a history whose entries are non-empty, contain
no newline AND carry no leading/trailing whitespace (they are fixed by
`strings.TrimSpace`, which `HistoryLoad` applies to every line)
round-trips through save followed by load exactly. -/
theorem history_roundtrip (l : Linenoise)
    (hE : ∀ e ∈ l.history, e ≠ [] ∧ 10 ∉ e ∧ trimSpace e = e) :
    historyRoundTrip l = l := by
  unfold historyRoundTrip saveContents
  by_cases h0 : l.history.length = 0
  · rw [if_pos h0]
    rfl
  · rw [if_neg h0]
    show { l with history := parseHistory (joinNL l.history) } = l
    unfold parseHistory
    have hne : l.history ≠ [] := fun he => h0 (by rw [he]; rfl)
    rw [splitOnNL_joinNL l.history hne (fun e he => (hE e he).2.1)]
    have hmap : l.history.map trimSpace = l.history := by
      conv_rhs => rw [← List.map_id l.history]
      exact List.map_congr_left (fun e he => (hE e he).2.2)
    have hfil : l.history.filter (fun e => e.length != 0) = l.history := by
      apply List.filter_eq_self.mpr
      intro e he
      have h1 : e ≠ [] := (hE e he).1
      simpa [List.length_eq_zero] using h1
    rw [hmap, hfil]

/-- Witness for C6's amended theorem: the history ["a", "bc"] (entries
non-empty, newline-free, whitespace-trimmed) round-trips exactly. -/
theorem history_roundtrip_witness :
    historyRoundTrip { history := [[97], [98, 99]], history_maxlen := 32 } =
      { history := [[97], [98, 99]], history_maxlen := 32 } :=
  history_roundtrip { history := [[97], [98, 99]], history_maxlen := 32 } (by decide)

/-! ### C1: the cursor invariant -/

/-- The backward scans of `delete_prev_word` never move right. -/
theorem backWhile_le (cond : Nat → Bool) (buf : List Nat) : ∀ p, backWhile cond buf p ≤ p := by
  intro p
  induction p with
  | zero => exact Nat.le_refl 0
  | succ n ih =>
    rw [backWhile]
    split
    · exact le_trans ih (Nat.le_succ n)
    · exact le_refl _

/-- Claim C1: every keystroke operation dispatched by the edit loop
(insert, backspace, delete, swap, the cursor moves, delete_line,
delete_to_end, delete_prev_word, set, history navigation) preserves
`0 ≤ pos ≤ len(buf)`. -/
theorem editOp_pos_invariant (l : Linenoise) (ls : linestate) (op : EditOp)
    (hinv : ls.pos ≤ ls.buf.length) :
    0 ≤ (applyEditOp l ls op).2.pos ∧
    (applyEditOp l ls op).2.pos ≤ (applyEditOp l ls op).2.buf.length := by
  refine ⟨Nat.zero_le _, ?_⟩
  cases op with
  | insert r =>
    show (editInsert ls r).pos ≤ (editInsert ls r).buf.length
    unfold editInsert
    simp only [List.length_append, List.length_take, List.length_cons, List.length_drop]
    omega
  | backspace =>
    show (editBackspace ls).pos ≤ (editBackspace ls).buf.length
    unfold editBackspace
    split
    · simp only [List.length_append, List.length_take, List.length_drop]
      omega
    · exact hinv
  | delete =>
    show (editDelete ls).pos ≤ (editDelete ls).buf.length
    unfold editDelete
    split
    case isTrue hc =>
      simp only [List.length_append, List.length_take, List.length_drop]
      omega
    case isFalse => exact hinv
  | swap =>
    show (editSwap ls).pos ≤ (editSwap ls).buf.length
    unfold editSwap
    split
    case isTrue hc =>
      simp only [List.length_set]
      split <;> omega
    case isFalse => exact hinv
  | moveLeft =>
    show (editMoveLeft ls).pos ≤ (editMoveLeft ls).buf.length
    unfold editMoveLeft
    split
    case isTrue => dsimp only; omega
    case isFalse => exact hinv
  | moveRight =>
    show (editMoveRight ls).pos ≤ (editMoveRight ls).buf.length
    unfold editMoveRight
    split
    case isTrue hc => dsimp only; omega
    case isFalse => exact hinv
  | moveHome =>
    show (editMoveHome ls).pos ≤ (editMoveHome ls).buf.length
    unfold editMoveHome
    split
    case isTrue => dsimp only; omega
    case isFalse => exact hinv
  | moveEnd =>
    show (editMoveEnd ls).pos ≤ (editMoveEnd ls).buf.length
    unfold editMoveEnd
    split
    · exact le_refl _
    · exact hinv
  | deleteLine =>
    show (delete_line ls).pos ≤ (delete_line ls).buf.length
    exact Nat.zero_le _
  | deleteToEnd =>
    show (delete_to_end ls).pos ≤ (delete_to_end ls).buf.length
    unfold delete_to_end
    simp only [List.length_take]
    omega
  | deletePrevWord =>
    show (delete_prev_word ls).pos ≤ (delete_prev_word ls).buf.length
    unfold delete_prev_word
    have hp1 := backWhile_le (fun c => c == 32) ls.buf ls.pos
    have hp2 := backWhile_le (fun c => c != 32) ls.buf
      (backWhile (fun c => c == 32) ls.buf ls.pos)
    simp only [List.length_append, List.length_take, List.length_drop]
    omega
  | set s =>
    show (editSet ls s).pos ≤ (editSet ls s).buf.length
    exact le_refl _
  | histPrev =>
    show (editSet (historyPrev l ls).2.1 (historyPrev l ls).2.2).pos ≤
      (editSet (historyPrev l ls).2.1 (historyPrev l ls).2.2).buf.length
    exact le_refl _
  | histNext =>
    show (editSet (historyNext l ls).2.1 (historyNext l ls).2.2).pos ≤
      (editSet (historyNext l ls).2.1 (historyNext l ls).2.2).buf.length
    exact le_refl _

/-- Witness for C1 at a concrete state and keystroke. -/
theorem editOp_pos_invariant_witness :
    (applyEditOp lnInit { buf := [97, 98], pos := 1, history_idx := 0 } EditOp.backspace).2.pos ≤
    (applyEditOp lnInit { buf := [97, 98], pos := 1, history_idx := 0 }
      EditOp.backspace).2.buf.length :=
  (editOp_pos_invariant lnInit { buf := [97, 98], pos := 1, history_idx := 0 }
    EditOp.backspace (by decide)).2

/-! ### C8: history navigation -/

/-- Claim C8: on a non-empty history with `history_idx < len`,
`historyPrev` stores the buffer at slot `len-1-history_idx`, clamps
`history_idx` to `min (history_idx+1) (len-1)` and returns the entry now
at the new index; `historyNext` symmetrically moves to
`history_idx - 1` (clamped at 0 by `Nat` subtraction).  On an empty
history both return the empty string and change nothing. -/
theorem historyPrevNext_spec (l : Linenoise) (ls : linestate) :
    (l.history = [] →
      historyPrev l ls = (l, ls, []) ∧ historyNext l ls = (l, ls, [])) ∧
    (ls.history_idx < l.history.length →
      ((historyPrev l ls).1.history =
          l.history.set (l.history.length - 1 - ls.history_idx) ls.buf ∧
        (historyPrev l ls).2.1.buf = ls.buf ∧
        (historyPrev l ls).2.1.pos = ls.pos ∧
        (historyPrev l ls).2.1.history_idx = min (ls.history_idx + 1) (l.history.length - 1) ∧
        (historyPrev l ls).2.2 = (historyPrev l ls).1.history.getD
          (l.history.length - 1 - (historyPrev l ls).2.1.history_idx) []) ∧
      ((historyNext l ls).1.history =
          l.history.set (l.history.length - 1 - ls.history_idx) ls.buf ∧
        (historyNext l ls).2.1.buf = ls.buf ∧
        (historyNext l ls).2.1.pos = ls.pos ∧
        (historyNext l ls).2.1.history_idx = ls.history_idx - 1 ∧
        (historyNext l ls).2.2 = (historyNext l ls).1.history.getD
          (l.history.length - 1 - (historyNext l ls).2.1.history_idx) [])) := by
  constructor
  · intro he
    have h0 : l.history.length = 0 := by rw [he]; rfl
    unfold historyPrev historyNext
    rw [if_pos h0, if_pos h0]
    exact ⟨rfl, rfl⟩
  · intro hidx
    have h0 : ¬ l.history.length = 0 := by omega
    constructor
    · unfold historyPrev
      rw [if_neg h0]
      dsimp only
      refine ⟨rfl, rfl, rfl, ?_, ?_⟩
      · unfold historySet
        rw [List.length_set]
        split <;> omega
      · unfold historyGet historySet
        rw [List.length_set]
    · unfold historyNext
      rw [if_neg h0]
      dsimp only
      refine ⟨rfl, rfl, rfl, rfl, ?_⟩
      unfold historyGet historySet
      rw [List.length_set]

/-- Witness for C8: history ["a","b"], buffer "c" at index 0 — prev
stores "c" at slot 1, moves the index to 1 and returns "a". -/
theorem historyPrevNext_spec_witness :
    (historyPrev { history := [[97], [98]], history_maxlen := 32 }
      { buf := [99], pos := 1, history_idx := 0 }).2.1.history_idx = 1 ∧
    (historyPrev { history := [[97], [98]], history_maxlen := 32 }
      { buf := [99], pos := 1, history_idx := 0 }).2.2 = [97] := by
  have h := (historyPrevNext_spec { history := [[97], [98]], history_maxlen := 32 }
    { buf := [99], pos := 1, history_idx := 0 }).2 (by decide)
  refine ⟨by simpa using h.1.2.2.2.1, ?_⟩
  rw [h.1.2.2.2.2]
  decide

/-! ### C10: edit-loop return paths and the live history entry -/

/-- Claim C10: the Ctrl-C return path returns ("", Quit) WITHOUT popping
the live-buffer history entry (the editor state, including its history,
is returned unchanged), while the CR, lone-Escape and
Ctrl-D-on-empty-buffer paths all pop the last history entry before
returning.  (The hotkey must not shadow the keys concerned.) -/
theorem edit_return_paths (cfg : EditCfg) (l : Linenoise) (ls : linestate)
    (h3 : cfg.hotkey ≠ KeycodeCtrlC) (h13 : cfg.hotkey ≠ KeycodeCR)
    (h4 : cfg.hotkey ≠ KeycodeCtrlD) :
    editStep cfg l ls (.ch KeycodeCtrlC) = .ret l [] true ∧
    editStep cfg l ls (.ch KeycodeCR) =
      .ret { l with history := (historyPop l.history (-1)).1 } ls.buf false ∧
    editStep cfg l ls .loneEsc =
      .ret { l with history := (historyPop l.history (-1)).1 } [] false ∧
    (ls.buf = [] → editStep cfg l ls (.ch KeycodeCtrlD) =
      .ret { l with history := (historyPop l.history (-1)).1 } [] true) := by
  have h3' : ¬ (KeycodeCtrlC = cfg.hotkey) := fun h => h3 h.symm
  have h13' : ¬ (KeycodeCR = cfg.hotkey) := fun h => h13 h.symm
  have h4' : ¬ (KeycodeCtrlD = cfg.hotkey) := fun h => h4 h.symm
  refine ⟨?_, ?_, ?_, ?_⟩
  · show editStep cfg l ls (.ch 3) = .ret l [] true
    unfold editStep
    simp only [KeycodeTAB, KeycodeCR, KeycodeBS, KeycodeESC, KeycodeCtrlA, KeycodeCtrlB,
      KeycodeCtrlC] at h3' ⊢
    simp [h3']
  · show editStep cfg l ls (.ch 13) = _
    unfold editStep
    simp only [KeycodeTAB, KeycodeCR] at h13' ⊢
    simp [h13']
  · rfl
  · intro hbuf
    show editStep cfg l ls (.ch 4) = _
    unfold editStep
    simp only [KeycodeTAB, KeycodeCR, KeycodeBS, KeycodeESC, KeycodeCtrlA, KeycodeCtrlB,
      KeycodeCtrlC, KeycodeCtrlD] at h4' ⊢
    simp [h4', hbuf]

/-- Witness for C10 with the default (unset) hotkey and a concrete
state: Ctrl-C leaves the one-entry history in place, CR pops it. -/
theorem edit_return_paths_witness :
    editStep { hotkey := 0, hasCompletion := false }
      { history := [[97]], history_maxlen := 32 }
      { buf := [97], pos := 1, history_idx := 0 } (.ch KeycodeCtrlC) =
      .ret { history := [[97]], history_maxlen := 32 } [] true ∧
    editStep { hotkey := 0, hasCompletion := false }
      { history := [[97]], history_maxlen := 32 }
      { buf := [97], pos := 1, history_idx := 0 } (.ch KeycodeCR) =
      .ret { history := [], history_maxlen := 32 } [97] false := by
  have h := edit_return_paths { hotkey := 0, hasCompletion := false }
    { history := [[97]], history_maxlen := 32 }
    { buf := [97], pos := 1, history_idx := 0 } (by decide) (by decide) (by decide)
  refine ⟨h.1, ?_⟩
  rw [h.2.1]
  decide

/-! ### C5: single-line refresh on a window narrower than the prompt -/

/-- Claim C5, evaluated at the failing input: with `prompt_width = 2`,
`cols = 2` (terminal no wider than the prompt), empty buffer and
`pos = 0`, the left-trim loop of `refresh_singleline` advances `b_start`
past `pos` and slices `buf[b_start:pos]` with `b_start > pos` — a Go
slice-bounds panic, modelled as `none`: no paint is produced. -/
theorem singleline_narrow_window_panics :
    refreshSinglelineFrame (fun _ => 1) 2 2 [] 0 = none := by
  rw [refreshSinglelineFrame]
  norm_num
  rw [trimLeftLoop]
  norm_num [sliceW, stringWidthRunes]

/-! ### C9: hint trimming -/

/-- The hint-trimming loop only shortens the prefix. -/
theorem trimHint_le (w : Nat → Nat) (t : List Nat) (hc : Int) :
    ∀ e, trimHint w t hc e ≤ e := by
  intro e
  induction e with
  | zero => exact le_refl 0
  | succ n ih =>
    rw [trimHint]
    split
    · exact le_trans ih (Nat.le_succ n)
    · exact le_refl _

/-- Postcondition of the hint-trimming loop: the chosen byte prefix fits
within `hc` columns (for positive `hc`) and every longer prefix up to the
starting point does not. -/
theorem trimHint_fits (w : Nat → Nat) (t : List Nat) (hc : Int) (h0 : 0 < hc) :
    ∀ e, (goStringWidth w (t.take (trimHint w t hc e)) : Int) ≤ hc ∧
      (∀ j, trimHint w t hc e < j → j ≤ e → (goStringWidth w (t.take j) : Int) > hc) := by
  intro e
  induction e with
  | zero =>
    constructor
    · show (goStringWidth w (t.take 0) : Int) ≤ hc
      simp only [List.take_zero]
      show ((0 : Nat) : Int) ≤ hc
      omega
    · intro j hj1 hj2
      omega
  | succ n ih =>
    rw [trimHint]
    split
    case isTrue hgt =>
      refine ⟨ih.1, ?_⟩
      intro j hj1 hj2
      by_cases hj : j = n + 1
      · rw [hj]
        exact hgt
      · exact ih.2 j hj1 (by omega)
    case isFalse hle =>
      refine ⟨by omega, ?_⟩
      intro j hj1 hj2
      omega

/-- Claim C9 (amended): when `hint_cols ≤ 0` no hint is rendered; when
`hint_cols > 0` and the callback supplies a non-empty hint, the rendered
text is a BYTE prefix of the hint — the longest-from-above byte cut whose
display width (decoding partial runes as U+FFFD) fits in `hint_cols`.
The cut need not fall on a rune boundary (see the counterexample). -/
theorem refreshShowHints_spec (w : Nat → Nat) (cols promptWidth : Nat) (buf : List Nat)
    (cb : List Nat → Option Hint) (h : Hint)
    (hcb : cb buf = some h) (hne : h.text.length ≠ 0) :
    ((cols : Int) - (promptWidth : Int) - (stringWidthRunes w buf : Int) ≤ 0 →
      refreshShowHints w cols promptWidth buf (some cb) = none) ∧
    (0 < (cols : Int) - (promptWidth : Int) - (stringWidthRunes w buf : Int) →
      ∃ e, e ≤ h.text.length ∧
        refreshShowHints w cols promptWidth buf (some cb) =
          some (h.text.take e, (if h.bold ∧ h.color < 0 then 37 else h.color), h.bold) ∧
        (goStringWidth w (h.text.take e) : Int) ≤
          (cols : Int) - (promptWidth : Int) - (stringWidthRunes w buf : Int) ∧
        (∀ j, e < j → j ≤ h.text.length → (goStringWidth w (h.text.take j) : Int) >
          (cols : Int) - (promptWidth : Int) - (stringWidthRunes w buf : Int))) := by
  constructor
  · intro hle
    show (if (cols : Int) - (promptWidth : Int) - (stringWidthRunes w buf : Int) ≤ 0 then none
      else _) = none
    rw [if_pos hle]
  · intro hgt
    refine ⟨trimHint w h.text
        ((cols : Int) - (promptWidth : Int) - (stringWidthRunes w buf : Int)) h.text.length,
      trimHint_le w h.text _ _, ?_, (trimHint_fits w h.text _ hgt h.text.length).1,
      fun j hj1 hj2 => (trimHint_fits w h.text _ hgt h.text.length).2 j hj1 hj2⟩
    show (if (cols : Int) - (promptWidth : Int) - (stringWidthRunes w buf : Int) ≤ 0 then none
      else _) = _
    rw [if_neg (by omega)]
    show (match cb buf with
      | none => none
      | some h => _) = _
    rw [hcb]
    show (if h.text.length = 0 then none else _) = _
    rw [if_neg hne]

/-- Claim C9 counterexample: prompt width 0, empty buffer, one terminal
column (`hint_cols = 1`), hint "中" (UTF-8 bytes E4 B8 AD, display width
2, U+FFFD width 1): the byte-wise trimming loop emits the single byte
0xE4, which is not a rune-boundary prefix of the hint — trimming one
RUNE at a time would have emitted the empty string. -/
theorem hints_byte_trim_counterexample :
    refreshShowHints w0 1 0 [] (some (fun _ => some hintCJK)) = some ([228], -1, false) ∧
    [228] ∉ runeBoundaryCuts [228, 184, 173] := by
  exact ⟨by decide, by decide⟩

/-- Witness for C9's amended theorem: hint "ab" (width 2) fits in 10
free columns and is rendered whole. -/
theorem refreshShowHints_spec_witness :
    refreshShowHints (fun _ => 1) 10 0 []
      (some (fun _ => some { text := [97, 98], color := 0, bold := false })) =
      some ([97, 98], 0, false) := by
  have h := (refreshShowHints_spec (fun _ => 1) 10 0 []
    (fun _ => some { text := [97, 98], color := 0, bold := false })
    { text := [97, 98], color := 0, bold := false } rfl (by decide)).2 (by decide)
  obtain ⟨e, he, heq, hfit, hmax⟩ := h
  have he2 : e = 2 := by
    have he' : e ≤ 2 := by simpa using he
    by_contra hne2
    have h2 := hmax 2 (by omega) (by decide)
    exact absurd h2 (by decide)
  rw [he2] at heq
  rw [heq]
  decide

/-! ### C2: the UTF-8 decoder emits exactly the encoded code points -/

/-- Oring `m < 64` into a value shifted left by 6 is addition. -/
theorem or64 (a m : Nat) (hm : m < 64) : (a <<< 6) ||| m = 64 * a + m := by
  apply Nat.eq_of_testBit_eq
  intro i
  rw [Nat.testBit_or, Nat.testBit_shiftLeft]
  by_cases h6 : 6 ≤ i
  · obtain ⟨j, rfl⟩ : ∃ j, i = 6 + j := ⟨i - 6, by omega⟩
    have hge : 6 + j ≥ 6 := by omega
    have hm' : m.testBit (6 + j) = false := by
      apply Nat.testBit_lt_two_pow
      calc m < 64 := hm
        _ = 2 ^ 6 := by norm_num
        _ ≤ 2 ^ (6 + j) := Nat.pow_le_pow_right (by norm_num) (by omega)
    rw [hm', decide_eq_true hge, Bool.true_and, Bool.or_false]
    have hsub : 6 + j - 6 = j := by omega
    rw [hsub]
    have e1 : (64 * a + m) / 2 ^ (6 + j) = a / 2 ^ j := by
      rw [pow_add]
      show (64 * a + m) / (2 ^ 6 * 2 ^ j) = a / 2 ^ j
      rw [← Nat.div_div_eq_div_mul]
      have h64 : (2 : Nat) ^ 6 = 64 := by norm_num
      rw [h64, Nat.mul_add_div (by norm_num), Nat.div_eq_of_lt hm, Nat.add_zero]
    rw [Nat.testBit_to_div_mod, Nat.testBit_to_div_mod, e1]
  · have hge : ¬ (i ≥ 6) := by omega
    rw [decide_eq_false hge, Bool.false_and, Bool.false_or]
    rw [Nat.testBit_to_div_mod, Nat.testBit_to_div_mod, decide_eq_decide]
    interval_cases i <;> (norm_num; omega)

/-- Tests `utf8.add` applies to a plain ASCII byte. -/
theorem ascii_byte_test : ∀ c, c < 128 → c &&& 0x80 = 0 := by decide

/-- Tests `utf8.add` applies to the head byte of a 2-byte encoding. -/
theorem twoByte_head_test : ∀ k, k < 32 →
    ¬ ((0xC0 + k) &&& 0x80 = 0) ∧ (0xC0 + k) &&& 0xe0 = 0xc0 ∧ (0xC0 + k) &&& 0x1f = k := by
  decide

/-- Tests `utf8.add` applies to the head byte of a 3-byte encoding. -/
theorem threeByte_head_test : ∀ k, k < 16 →
    ¬ ((0xE0 + k) &&& 0x80 = 0) ∧ ¬ ((0xE0 + k) &&& 0xe0 = 0xc0) ∧
    (0xE0 + k) &&& 0xf0 = 0xe0 ∧ (0xE0 + k) &&& 0x0f = k := by
  decide

/-- Tests `utf8.add` applies to the head byte of a 4-byte encoding. -/
theorem fourByte_head_test : ∀ k, k < 8 →
    ¬ ((0xF0 + k) &&& 0x80 = 0) ∧ ¬ ((0xF0 + k) &&& 0xe0 = 0xc0) ∧
    ¬ ((0xF0 + k) &&& 0xf0 = 0xe0) ∧ (0xF0 + k) &&& 0xf8 = 0xf0 ∧
    (0xF0 + k) &&& 0x07 = k := by
  decide

/-- Tests `utf8.add` applies to a continuation byte. -/
theorem contByte_test : ∀ m, m < 64 →
    (0x80 + m) &&& 0xc0 = 0x80 ∧ (0x80 + m) &&& 0x3f = m := by
  decide

/-- Projection of a literal decoder state (used to discharge the state
tests of `utf8.add` on intermediate decoder states). -/
theorem utf8_state_mk (s n v : Nat) : (utf8.mk s n v).state = s := rfl

/-- Feeding the encoding of one scalar value to a decoder in the byte-0
state emits `(null, 0)` for each leading byte and then the code point
with its total byte count, leaving the decoder back in the byte-0
state. -/
theorem utf8_feed_encode_one (u : utf8) (hu : u.state = getByte0) (c : Nat) (hc : IsScalar c) :
    (u.feed (encodeUtf8 c)).1 =
      List.replicate ((encodeUtf8 c).length - 1) (KeycodeNull, 0) ++
        [(c, (encodeUtf8 c).length)] ∧
    (u.feed (encodeUtf8 c)).2.state = getByte0 := by
  obtain ⟨hlt, -⟩ := hc
  by_cases h1 : c < 0x80
  · -- 1-byte
    have henc : encodeUtf8 c = [c] := by rw [encodeUtf8, if_pos h1]
    have hadd1 : u.add c = (u, c, 1) := by
      unfold utf8.add
      rw [hu, if_pos rfl, if_pos (ascii_byte_test c h1)]
    have hfeed : u.feed (encodeUtf8 c) = ([(c, 1)], u) := by
      rw [henc]
      simp only [utf8.feed, hadd1]
    exact ⟨by rw [hfeed, henc]; rfl, by rw [hfeed]; exact hu⟩
  · by_cases h2 : c < 0x800
    · -- 2-byte
      have hk : c / 64 < 32 := by omega
      have hm : c % 64 < 64 := Nat.mod_lt _ (by norm_num)
      have ht := twoByte_head_test (c / 64) hk
      have htc := contByte_test (c % 64) hm
      have henc : encodeUtf8 c = [0xC0 + c / 64, 0x80 + c % 64] := by
        rw [encodeUtf8, if_neg h1, if_pos h2]
      have hadd1 : u.add (0xC0 + c / 64) =
          ({ state := get1More, count := 2, val := (c / 64) <<< 6 }, KeycodeNull, 0) := by
        unfold utf8.add
        rw [hu, if_pos rfl, if_neg ht.1, if_pos ht.2.1, ht.2.2]
      have hadd2 : (utf8.mk get1More 2 ((c / 64) <<< 6)).add (0x80 + c % 64) =
          ({ state := getByte0, count := 2, val := c }, c, 2) := by
        unfold utf8.add
        rw [utf8_state_mk]
        rw [if_neg (by decide), if_neg (by decide), if_neg (by decide), if_pos (by decide),
          if_pos htc.1, htc.2, or64 _ _ hm, Nat.div_add_mod]
      have hfeed : u.feed (encodeUtf8 c) =
          ([(KeycodeNull, 0), (c, 2)], { state := getByte0, count := 2, val := c }) := by
        rw [henc]
        simp only [utf8.feed, hadd1, hadd2]
      exact ⟨by rw [hfeed, henc]; rfl, by rw [hfeed]⟩
    · by_cases h3 : c < 0x10000
      · -- 3-byte
        have hk : c / 4096 < 16 := by omega
        have hm1 : c / 64 % 64 < 64 := Nat.mod_lt _ (by norm_num)
        have hm2 : c % 64 < 64 := Nat.mod_lt _ (by norm_num)
        have ht := threeByte_head_test (c / 4096) hk
        have ht1 := contByte_test (c / 64 % 64) hm1
        have ht2 := contByte_test (c % 64) hm2
        have henc : encodeUtf8 c = [0xE0 + c / 4096, 0x80 + c / 64 % 64, 0x80 + c % 64] := by
          rw [encodeUtf8, if_neg h1, if_neg h2, if_pos h3]
        have hadd1 : u.add (0xE0 + c / 4096) =
            ({ state := get2More, count := 3, val := (c / 4096) <<< 6 }, KeycodeNull, 0) := by
          unfold utf8.add
          rw [hu, if_pos rfl, if_neg ht.1, if_neg ht.2.1, if_pos ht.2.2.1, ht.2.2.2]
        have hadd2 : (utf8.mk get2More 3 ((c / 4096) <<< 6)).add (0x80 + c / 64 % 64) =
            (utf8.mk get1More 3 ((64 * (c / 4096) + c / 64 % 64) <<< 6), KeycodeNull, 0) := by
          unfold utf8.add
          rw [utf8_state_mk]
          rw [if_neg (by decide), if_neg (by decide), if_pos (by decide), if_pos ht1.1,
            ht1.2, or64 _ _ hm1]
        have hadd3 : (utf8.mk get1More 3 ((64 * (c / 4096) + c / 64 % 64) <<< 6)).add
            (0x80 + c % 64) =
            ({ state := getByte0, count := 3, val := c }, c, 3) := by
          have harith : 64 * (64 * (c / 4096) + c / 64 % 64) + c % 64 = c := by omega
          unfold utf8.add
          rw [utf8_state_mk]
          rw [if_neg (by decide), if_neg (by decide), if_neg (by decide), if_pos (by decide),
            if_pos ht2.1, ht2.2, or64 _ _ hm2, harith]
        have hfeed : u.feed (encodeUtf8 c) =
            ([(KeycodeNull, 0), (KeycodeNull, 0), (c, 3)],
              { state := getByte0, count := 3, val := c }) := by
          rw [henc]
          simp only [utf8.feed, hadd1, hadd2, hadd3]
        exact ⟨by rw [hfeed, henc]; rfl, by rw [hfeed]⟩
      · -- 4-byte
        have hk : c / 262144 < 8 := by omega
        have hm1 : c / 4096 % 64 < 64 := Nat.mod_lt _ (by norm_num)
        have hm2 : c / 64 % 64 < 64 := Nat.mod_lt _ (by norm_num)
        have hm3 : c % 64 < 64 := Nat.mod_lt _ (by norm_num)
        have ht := fourByte_head_test (c / 262144) hk
        have ht1 := contByte_test (c / 4096 % 64) hm1
        have ht2 := contByte_test (c / 64 % 64) hm2
        have ht3 := contByte_test (c % 64) hm3
        have henc : encodeUtf8 c =
            [0xF0 + c / 262144, 0x80 + c / 4096 % 64, 0x80 + c / 64 % 64, 0x80 + c % 64] := by
          rw [encodeUtf8, if_neg h1, if_neg h2, if_neg h3]
        have hadd1 : u.add (0xF0 + c / 262144) =
            ({ state := get3More, count := 4, val := (c / 262144) <<< 6 }, KeycodeNull, 0) := by
          unfold utf8.add
          rw [hu, if_pos rfl, if_neg ht.1, if_neg ht.2.1, if_neg ht.2.2.1, if_pos ht.2.2.2.1,
            ht.2.2.2.2]
        have hadd2 : (utf8.mk get3More 4 ((c / 262144) <<< 6)).add (0x80 + c / 4096 % 64) =
            (utf8.mk get2More 4 ((64 * (c / 262144) + c / 4096 % 64) <<< 6),
              KeycodeNull, 0) := by
          unfold utf8.add
          rw [utf8_state_mk]
          rw [if_neg (by decide), if_pos (by decide), if_pos ht1.1, ht1.2, or64 _ _ hm1]
        have hadd3 : (utf8.mk get2More 4 ((64 * (c / 262144) + c / 4096 % 64) <<< 6)).add
            (0x80 + c / 64 % 64) =
            (utf8.mk get1More 4 ((64 * (64 * (c / 262144) + c / 4096 % 64) + c / 64 % 64) <<< 6),
              KeycodeNull, 0) := by
          unfold utf8.add
          rw [utf8_state_mk]
          rw [if_neg (by decide), if_neg (by decide), if_pos (by decide), if_pos ht2.1,
            ht2.2, or64 _ _ hm2]
        have hadd4 : (utf8.mk get1More 4
            ((64 * (64 * (c / 262144) + c / 4096 % 64) + c / 64 % 64) <<< 6)).add
            (0x80 + c % 64) = ({ state := getByte0, count := 4, val := c }, c, 4) := by
          have harith :
              64 * (64 * (64 * (c / 262144) + c / 4096 % 64) + c / 64 % 64) + c % 64 = c := by
            omega
          unfold utf8.add
          rw [utf8_state_mk]
          rw [if_neg (by decide), if_neg (by decide), if_neg (by decide), if_pos (by decide),
            if_pos ht3.1, ht3.2, or64 _ _ hm3, harith]
        have hfeed : u.feed (encodeUtf8 c) =
            ([(KeycodeNull, 0), (KeycodeNull, 0), (KeycodeNull, 0), (c, 4)],
              { state := getByte0, count := 4, val := c }) := by
          rw [henc]
          simp only [utf8.feed, hadd1, hadd2, hadd3, hadd4]
        exact ⟨by rw [hfeed, henc]; rfl, by rw [hfeed]⟩

/-- Feeding a concatenation threads the decoder state through. -/
theorem utf8_feed_append (u : utf8) (l1 l2 : List Nat) :
    u.feed (l1 ++ l2) =
      ((u.feed l1).1 ++ ((u.feed l1).2.feed l2).1, ((u.feed l1).2.feed l2).2) := by
  induction l1 generalizing u with
  | nil => rfl
  | cons c cs ih =>
    show u.feed (c :: (cs ++ l2)) = _
    simp only [utf8.feed, List.cons_append]
    rw [ih]

/-- Claim C2: for every byte stream that is the valid UTF-8 encoding of
a sequence of scalar values, feeding the bytes one at a time to
`utf8.add` emits exactly those code points in order — `(null, 0)` while
a code point is incomplete, then the code point paired with the total
byte length of its encoding. -/
theorem utf8_decoder_correct (cs : List Nat) (hcs : ∀ c ∈ cs, IsScalar c) :
    (utf8.init.feed (cs.flatMap encodeUtf8)).1 =
      cs.flatMap (fun c =>
        List.replicate ((encodeUtf8 c).length - 1) (KeycodeNull, 0) ++
          [(c, (encodeUtf8 c).length)]) := by
  have main : ∀ (ds : List Nat), (∀ c ∈ ds, IsScalar c) → ∀ u : utf8, u.state = getByte0 →
      (u.feed (ds.flatMap encodeUtf8)).1 =
        ds.flatMap (fun c =>
          List.replicate ((encodeUtf8 c).length - 1) (KeycodeNull, 0) ++
            [(c, (encodeUtf8 c).length)]) ∧
      (u.feed (ds.flatMap encodeUtf8)).2.state = getByte0 := by
    intro ds
    induction ds with
    | nil => exact fun _ u hu => ⟨rfl, hu⟩
    | cons c rest ih =>
      intro hds u hu
      have h1 := utf8_feed_encode_one u hu c (hds c (List.mem_cons_self c rest))
      have h2 := ih (fun x hx => hds x (List.mem_cons_of_mem c hx))
        (u.feed (encodeUtf8 c)).2 h1.2
      rw [List.flatMap_cons, List.flatMap_cons, utf8_feed_append]
      refine ⟨?_, h2.2⟩
      show (u.feed (encodeUtf8 c)).1 ++
        ((u.feed (encodeUtf8 c)).2.feed (rest.flatMap encodeUtf8)).1 = _
      rw [h1.1, h2.1]
  exact (main cs hcs utf8.init rfl).1

/-- Witness for C2 on a concrete stream: "H" (1 byte), "é" (2 bytes),
"中" (3 bytes), a 4-byte emoji. -/
theorem utf8_decoder_correct_witness :
    (utf8.init.feed ([72, 233, 0x4E2D, 0x1F600].flatMap encodeUtf8)).1 =
      [(72, 1), (0, 0), (233, 2), (0, 0), (0, 0), (0x4E2D, 3),
        (0, 0), (0, 0), (0, 0), (0x1F600, 4)] := by
  rw [utf8_decoder_correct [72, 233, 0x4E2D, 0x1F600] (by decide)]
  decide

end GoCli
